import Mathlib

set_option linter.unusedSectionVars false

/-!
Shallow embedding of the `collectc` vector engine (`src/vector.c`).

The C type `vector_t` is a machine word that either carries a tag bit
(low bit set) encoding the element size of a zero-capacity vector, or is
a pointer to a `vector_header_t` (capacity, length, elementSize) that is
followed in memory by the element records. We embed a vector as an
inductive with those two forms. Element records are opaque fixed-size
byte strings in C; here they are values of an arbitrary inhabited type
`a`, and the element region of an allocation is a total function
`Nat -> a` (the cell at each element index). All `memmove`/`memcpy`
calls in the C source move whole element records (their byte counts are
multiples of `elementSize`), so the element-granular model is faithful.

Machine integers: `size_t` values are modelled as `Nat`. The tagged
encoding `(elementSize << 1) | 1` truncates to the word width, which we
keep explicit with `% WORD`. In `vector_insert` the C source computes
the `size_t` difference `header->length - 1 - count`; where that
subtraction underflows, the C program passes an astronomically large
byte count to `memmove` and overruns the allocation (undefined
behavior). The model uses truncated `Nat` subtraction there; every
theorem below that touches that expression stays in the region where
the two agree.

`abort()` is modelled by returning `none` from the operations that can
abort; an aborting operation has no post-state.
-/

namespace Collectc

/-- The two representations sharing the handle value space: the tagged
zero-capacity form (low bit set, element size in the higher bits) and
the heap form holding the allocation header fields together with the
element region of the allocation. -/
inductive Vec (a : Type) where
  | tagged (w : Nat)
  | heap (capacity length elementSize : Nat) (data : Nat → a)

/-- The width of `vector_t` in values: `2 ^ (sizeof(vector_t) * CHAR_BIT)`
on the 64-bit platform the source targets. -/
def WORD : Nat := 2 ^ 64

/-- The constant `MAX_ZERO_CAPACITY_ELEMENT_SIZE = (size_t)1 << (sizeof(vector_t) * CHAR_BIT - 1)`. -/
def MAX_ZERO_CAPACITY_ELEMENT_SIZE : Nat := 2 ^ 63

variable {a : Type} [Inhabited a]

/-- The test `vector_base(vec) == NULL`: true exactly on the tagged form. -/
def vector_base_is_null : Vec a → Bool
  | .tagged _ => true
  | .heap _ _ _ _ => false

/-- The element region of the allocation behind a handle; for the tagged
form there is no allocation, so every cell is the unspecified `default`. -/
def dataOf : Vec a → Nat → a
  | .tagged _ => fun _ => default
  | .heap _ _ _ f => f

/-- Model of `vector_len`: `header == NULL ? 0 : header->length`. -/
def vector_len : Vec a → Nat
  | .tagged _ => 0
  | .heap _ len _ _ => len

/-- Model of `vector_capacity`: `header == NULL ? 0 : header->capacity`. -/
def vector_capacity : Vec a → Nat
  | .tagged _ => 0
  | .heap cap _ _ _ => cap

/-- Model of `vector_element_size`: `header == NULL ? vec >> 1 : header->elementSize`. -/
def vector_element_size : Vec a → Nat
  | .tagged w => w / 2
  | .heap _ _ es _ => es

/-- Model of `vector_is_empty`: `vector_len(vec) == 0`. -/
def vector_is_empty (vec : Vec a) : Bool := vector_len vec == 0

/-- Model of `vector_new(initialCapacity, elementSize)`. The tagged branch returns
`((vector_t)elementSize << 1) | 1`, truncated to the word width; the heap
branch allocates and fills in the header (the fresh element region is
uninitialized, modelled as `default`). -/
def vector_new (initialCapacity elementSize : Nat) : Vec a :=
  if initialCapacity == 0 && elementSize ≤ MAX_ZERO_CAPACITY_ELEMENT_SIZE then
    .tagged (elementSize * 2 % WORD + 1)
  else
    .heap initialCapacity 0 elementSize (fun _ => default)

/-- Model of `memmove` inside one element region: the `n` cells starting at `dst`
receive the values the `n` cells starting at `src` held before the call
(`memmove` copies as if through a temporary buffer); other cells keep
their values. -/
def memmove (f : Nat → a) (dst src n : Nat) : Nat → a :=
  fun i => if dst ≤ i ∧ i < dst + n then f (src + (i - dst)) else f i

/-- Model of `memcpy` from a caller-supplied buffer (`src`, read element by
element) into the element region at `dst`; cells the buffer does not
cover are unspecified, modelled as `default`. -/
def memcpy (f : Nat → a) (dst : Nat) (src : List a) (n : Nat) : Nat → a :=
  fun i => if dst ≤ i ∧ i < dst + n then src.getD (i - dst) default else f i

/-- Model of `vector_reserve`. The grow branch computes
`newCapacity = oldCapacity + (oldCapacity / 2 * 3) + extraCapacity` and
calls `realloc`, which preserves the old block byte for byte (the new
capacity is never below the old one) and leaves the rest of the new
block uninitialized (`default`); the header is then rewritten with the
saved length and element size. -/
def vector_reserve (vec : Vec a) (extraCapacity : Nat) : Vec a :=
  let length := vector_len vec
  let oldCapacity := vector_capacity vec
  if length + extraCapacity ≤ oldCapacity then vec
  else
    let elementSize := vector_element_size vec
    let newCapacity := oldCapacity + oldCapacity / 2 * 3 + extraCapacity
    .heap newCapacity length elementSize
      (fun i => if i < oldCapacity then dataOf vec i else default)

/-- Model of `vector_insert`. After reserving room, the source aborts when
`vector_base` is null or `index > header->length`; when `index < length`
it `memmove`s `header->length - 1 - count` elements from `index` up to
`index + count`, then `memcpy`s the `count` new elements in and bumps
the length. -/
def vector_insert (vec : Vec a) (index : Nat) (elements : List a) (count : Nat) :
    Option (Vec a) :=
  match vector_reserve vec count with
  | .tagged _ => none
  | .heap cap len es f =>
    if index > len then none
    else
      let f1 := if index < len then memmove f (index + count) index (len - 1 - count) else f
      some (.heap cap (len + count) es (memcpy f1 index elements count))

/-- Model of `vector_push`: insertion at `index = vector_len(*vec)`. -/
def vector_push (vec : Vec a) (elements : List a) (count : Nat) : Option (Vec a) :=
  vector_insert vec (vector_len vec) elements count

/-- Model of `vector_slice`: aborts when `vector_base` is null or
`index + count > header->length`; otherwise copies the `count` elements
starting at `index` into the caller buffer (returned as a list). -/
def vector_slice (vec : Vec a) (index count : Nat) : Option (List a) :=
  match vec with
  | .tagged _ => none
  | .heap _ len _ f =>
    if index + count > len then none
    else some ((List.range count).map fun j => f (index + j))

/-- Model of `vector_extend`: aborts on an element size mismatch; when the other
vector is heap-backed, pushes its `length` elements (read from its
element region); a tagged other vector has a null base and is skipped. -/
def vector_extend (vec other : Vec a) : Option (Vec a) :=
  if vector_element_size vec ≠ vector_element_size other then none
  else
    match other with
    | .tagged _ => some vec
    | .heap _ olen _ odata => vector_push vec ((List.range olen).map odata) olen

/-- Model of `vector_remove`: aborts when `vector_base` is null or
`index + count > vector_len(vec)`; otherwise `memmove`s the
`length - index - count` elements after the removed range down to
`index` and decrements the length. -/
def vector_remove (vec : Vec a) (index count : Nat) : Option (Vec a) :=
  match vec with
  | .tagged _ => none
  | .heap cap len es f =>
    if index + count > len then none
    else some (.heap cap (len - count) es (memmove f index (index + count) (len - index - count)))

/-- Model of `vector_at_mut`: `index < vector_len(vec) ? vector_at_unchecked(vec, index) : NULL`.
The returned pointer is modelled by the element record it points at. -/
def vector_at_mut (vec : Vec a) (index : Nat) : Option a :=
  if index < vector_len vec then some (dataOf vec index) else none

/-- Model of `vector_at`: same lookup as `vector_at_mut`, returning a const pointer. -/
def vector_at (vec : Vec a) (index : Nat) : Option a := vector_at_mut vec index

/-- Model of `vector_first`: `vector_at(vec, 0)`. -/
def vector_first (vec : Vec a) : Option a := vector_at vec 0

/-- Model of `vector_last`: `length > 0 ? vector_at_unchecked(vec, length - 1) : NULL`. -/
def vector_last (vec : Vec a) : Option a :=
  let length := vector_len vec
  if length > 0 then some (dataOf vec (length - 1)) else none

/-- Model of `vector_clear`: resets `header->length` to zero when a header exists;
storage is neither freed nor shrunk. -/
def vector_clear : Vec a → Vec a
  | .tagged w => .tagged w
  | .heap cap _ es f => .heap cap 0 es f

/-- The logical contents of a vector: the first `length` cells of its
element region, in index order. -/
def elems (vec : Vec a) : List a := (List.range (vector_len vec)).map (dataOf vec)

/-- The header invariant `length <= capacity` (trivially true for the
tagged form, which reports both as zero). -/
def Wf (vec : Vec a) : Prop := vector_len vec ≤ vector_capacity vec

instance (vec : Vec a) : Decidable (Wf vec) :=
  inferInstanceAs (Decidable (_ ≤ _))

/-!
State-threaded forms of the read-only operations. Each mirrors the body
of the corresponding C function statement by statement: the function
receives the handle (and, through it, the header and element region) and
performs loads only, so the threaded state is rebuilt unchanged. These
are used to express frame properties; the value components agree with
the plain definitions above.
-/

/-- Model of `vector_len` as a state transformer. -/
def vector_len_st : Vec a → Nat × Vec a
  | .tagged w => (0, .tagged w)
  | .heap cap len es f => (len, .heap cap len es f)

/-- Model of `vector_capacity` as a state transformer. -/
def vector_capacity_st : Vec a → Nat × Vec a
  | .tagged w => (0, .tagged w)
  | .heap cap len es f => (cap, .heap cap len es f)

/-- Model of `vector_element_size` as a state transformer. -/
def vector_element_size_st : Vec a → Nat × Vec a
  | .tagged w => (w / 2, .tagged w)
  | .heap cap len es f => (es, .heap cap len es f)

/-- Model of `vector_is_empty` as a state transformer. -/
def vector_is_empty_st (vec : Vec a) : Bool × Vec a :=
  let p := vector_len_st vec
  (p.1 == 0, p.2)

/-- Model of `vector_at_mut` as a state transformer. -/
def vector_at_mut_st (vec : Vec a) (index : Nat) : Option a × Vec a :=
  match vec with
  | .tagged w => (if index < 0 then some default else none, .tagged w)
  | .heap cap len es f => (if index < len then some (f index) else none, .heap cap len es f)

/-- Model of `vector_at` as a state transformer. -/
def vector_at_st (vec : Vec a) (index : Nat) : Option a × Vec a :=
  vector_at_mut_st vec index

/-- Model of `vector_first` as a state transformer. -/
def vector_first_st (vec : Vec a) : Option a × Vec a :=
  vector_at_st vec 0

/-- Model of `vector_last` as a state transformer. -/
def vector_last_st : Vec a → Option a × Vec a
  | .tagged w => (none, .tagged w)
  | .heap cap len es f =>
    ((if len > 0 then some (f (len - 1)) else none), .heap cap len es f)

/-- Model of `vector_slice` as a state transformer (the output buffer belongs to
the caller; the vector itself is only read). -/
def vector_slice_st (vec : Vec a) (index count : Nat) : Option (List a) × Vec a :=
  match vec with
  | .tagged w => (none, .tagged w)
  | .heap cap len es f =>
    ((if index + count > len then none
      else some ((List.range count).map fun j => f (index + j))), .heap cap len es f)

/-- Model of `vector_extend` as a state transformer over the second argument,
which the C source reads (base pointer, header length, element region)
but never writes. -/
def vector_extend_st (vec other : Vec a) : Option (Vec a × Vec a) :=
  if vector_element_size vec ≠ vector_element_size other then none
  else
    match other with
    | .tagged w => some (vec, .tagged w)
    | .heap ocap olen oes odata =>
      (vector_push vec ((List.range olen).map odata) olen).map
        fun v2 => (v2, .heap ocap olen oes odata)

/-! ### Helper lemmas -/

theorem memmove_zero (f : Nat → a) (dst src : Nat) : memmove f dst src 0 = f := by
  funext i
  simp [memmove]

theorem memmove_self (f : Nat → a) (dst n : Nat) : memmove f dst dst n = f := by
  funext i
  unfold memmove
  split
  · next h => rw [Nat.add_sub_cancel' h.1]
  · rfl

theorem memcpy_zero (f : Nat → a) (dst : Nat) (src : List a) : memcpy f dst src 0 = f := by
  funext i
  simp [memcpy]

theorem reserve_len (vec : Vec a) (e : Nat) :
    vector_len (vector_reserve vec e) = vector_len vec := by
  simp only [vector_reserve]
  split
  · rfl
  · rfl

theorem reserve_element_size (vec : Vec a) (e : Nat) :
    vector_element_size (vector_reserve vec e) = vector_element_size vec := by
  simp only [vector_reserve]
  split
  · rfl
  · rfl

theorem reserve_noop (vec : Vec a) (e : Nat)
    (h : vector_len vec + e ≤ vector_capacity vec) : vector_reserve vec e = vec := by
  simp only [vector_reserve]
  exact if_pos h

theorem reserve_capacity_ge (vec : Vec a) (e : Nat) (hwf : Wf vec) :
    vector_len vec + e ≤ vector_capacity (vector_reserve vec e) := by
  simp only [vector_reserve]
  split
  · next h => exact h
  · show vector_len vec + e ≤ vector_capacity vec + vector_capacity vec / 2 * 3 + e
    have := hwf
    unfold Wf at this
    omega

theorem reserve_wf (vec : Vec a) (e : Nat) (hwf : Wf vec) : Wf (vector_reserve vec e) := by
  unfold Wf
  rw [reserve_len]
  calc vector_len vec ≤ vector_len vec + e := Nat.le_add_right _ _
    _ ≤ vector_capacity (vector_reserve vec e) := reserve_capacity_ge vec e hwf

theorem reserve_dataOf (vec : Vec a) (e i : Nat) (hwf : Wf vec) (hi : i < vector_len vec) :
    dataOf (vector_reserve vec e) i = dataOf vec i := by
  simp only [vector_reserve]
  split
  · rfl
  · show (if i < vector_capacity vec then dataOf vec i else default) = dataOf vec i
    have := hwf
    unfold Wf at this
    rw [if_pos (by omega)]

theorem reserve_not_null (vec : Vec a) (e : Nat)
    (h : 0 < e ∨ vector_base_is_null vec = false) :
    vector_base_is_null (vector_reserve vec e) = false := by
  simp only [vector_reserve]
  split
  · next hle =>
    rcases h with h | h
    · cases vec with
      | tagged w =>
        exact absurd hle (by simp [vector_len, vector_capacity]; omega)
      | heap cap len es f => rfl
    · cases vec with
      | tagged w => exact absurd h (by simp [vector_base_is_null])
      | heap cap len es f => rfl
  · rfl

theorem heap_of_not_null (vec : Vec a) (h : vector_base_is_null vec = false) :
    ∃ cap len es f, vec = Vec.heap cap len es f := by
  cases vec with
  | tagged w => exact absurd h (by simp [vector_base_is_null])
  | heap cap len es f => exact ⟨cap, len, es, f, rfl⟩

theorem getD_range_map (l : List a) :
    (List.range l.length).map (fun j => l.getD j default) = l := by
  apply List.ext_getElem
  · simp
  · intro i h1 h2
    simp [List.getD_eq_getElem?_getD, List.getElem?_eq_getElem h2]

theorem insert_reserved_heap (vec : Vec a) (index count cap len es : Nat) (f : Nat → a)
    (elements : List a) (hr : vector_reserve vec count = Vec.heap cap len es f) :
    vector_insert vec index elements count =
      if index > len then none
      else some (Vec.heap cap (len + count) es
        (memcpy (if index < len then memmove f (index + count) index (len - 1 - count) else f)
          index elements count)) := by
  unfold vector_insert
  rw [hr]

/-- Appending at `index = length` (the `vector_push` path through
`vector_insert`): the reserve step keeps the length, element size and
the first `length` cells; the bounds check passes, the shifting
`memmove` is skipped because `index < length` fails, and the `memcpy`
writes the new elements after the existing ones. -/
theorem push_spec (vec : Vec a) (elements : List a) (count : Nat)
    (hwf : Wf vec) (hlen : elements.length = count)
    (hnn : 0 < count ∨ vector_base_is_null vec = false) :
    ∃ cap f, vector_push vec elements count
        = some (Vec.heap cap (vector_len vec + count) (vector_element_size vec) f)
      ∧ (List.range (vector_len vec + count)).map f = elems vec ++ elements
      ∧ vector_len vec + count ≤ cap := by
  obtain ⟨cap, len, es, f, hr⟩ := heap_of_not_null _ (reserve_not_null vec count hnn)
  have hlen2 : len = vector_len vec := by
    have h := reserve_len vec count; rw [hr] at h; exact h
  have hes : es = vector_element_size vec := by
    have h := reserve_element_size vec count; rw [hr] at h; exact h
  have hr' : vector_reserve vec count
      = Vec.heap cap (vector_len vec) (vector_element_size vec) f := by
    rw [hr, hlen2, hes]
  have hcap : vector_len vec + count ≤ cap := by
    have h := reserve_capacity_ge vec count hwf; rw [hr'] at h; exact h
  have hdata : ∀ i < vector_len vec, f i = dataOf vec i := by
    intro i hi
    have h := reserve_dataOf vec count i hwf hi; rw [hr'] at h; exact h
  refine ⟨cap, memcpy f (vector_len vec) elements count, ?_, ?_, hcap⟩
  · unfold vector_push
    rw [insert_reserved_heap vec (vector_len vec) count cap (vector_len vec)
      (vector_element_size vec) f elements hr']
    rw [if_neg (lt_irrefl _), if_neg (lt_irrefl _)]
  · rw [List.range_add, List.map_append, List.map_map]
    congr 1
    · unfold elems
      apply List.map_congr_left
      intro i hi
      rw [List.mem_range] at hi
      unfold memcpy
      rw [if_neg (by omega)]
      exact hdata i hi
    · subst hlen
      apply List.ext_getElem
      · simp
      · intro i h1 h2
        simp only [List.getElem_map, List.getElem_range, Function.comp_apply]
        unfold memcpy
        rw [List.length_map, List.length_range] at h1
        rw [if_pos (by omega)]
        simp [List.getD_eq_getElem?_getD, List.getElem?_eq_getElem h2]

/-- The element shuffle done by `vector_remove`: moving the
`length - index - count` cells after the removed range down to `index`
turns the first `length - count` cells into the old contents with the
range `[index, index + count)` cut out. -/
theorem remove_elems_eq (f : Nat → a) (len index count : Nat) (h : index + count ≤ len) :
    (List.range (len - count)).map (memmove f index (index + count) (len - index - count))
      = ((List.range len).map f).take index ++ ((List.range len).map f).drop (index + count) := by
  apply List.ext_getElem
  · simp
    omega
  · intro i h1 h2
    rw [List.length_map, List.length_range] at h1
    simp only [List.getElem_map, List.getElem_range]
    unfold memmove
    rw [List.getElem_append]
    by_cases hc : i < index
    · rw [if_neg (by omega), dif_pos (by simp; omega)]
      simp
    · rw [if_pos (by constructor <;> omega), dif_neg (by simp; omega)]
      simp only [List.length_take, List.length_map, List.length_range, List.getElem_drop,
        List.getElem_map, List.getElem_range]
      congr 1
      omega

theorem wf_new (c e : Nat) : Wf (vector_new (a := a) c e) := by
  unfold Wf vector_new
  split
  · simp [vector_len, vector_capacity]
  · simp [vector_len, vector_capacity]

theorem insert_wf_es (vec : Vec a) (index count : Nat) (el : List a) (hwf : Wf vec) :
    (vector_insert vec index el count).elim True fun v2 =>
      Wf v2 ∧ vector_element_size v2 = vector_element_size vec := by
  cases hr : vector_reserve vec count with
  | tagged w =>
    unfold vector_insert
    rw [hr]
    trivial
  | heap cap len es f =>
    rw [insert_reserved_heap vec index count cap len es f el hr]
    split
    · trivial
    · have hlen : len = vector_len vec := by
        have h := reserve_len vec count; rw [hr] at h; exact h
      have hes : es = vector_element_size vec := by
        have h := reserve_element_size vec count; rw [hr] at h; exact h
      have hcap : vector_len vec + count ≤ cap := by
        have h := reserve_capacity_ge vec count hwf; rw [hr] at h; exact h
      exact ⟨by unfold Wf; simp only [vector_len, vector_capacity]; omega, hes⟩

theorem push_wf_es (vec : Vec a) (count : Nat) (el : List a) (hwf : Wf vec) :
    (vector_push vec el count).elim True fun v2 =>
      Wf v2 ∧ vector_element_size v2 = vector_element_size vec :=
  insert_wf_es vec (vector_len vec) count el hwf

theorem extend_wf_es (vec other : Vec a) (hwf : Wf vec) :
    (vector_extend vec other).elim True fun v2 =>
      Wf v2 ∧ vector_element_size v2 = vector_element_size vec := by
  unfold vector_extend
  split
  · trivial
  · cases other with
    | tagged w => exact ⟨hwf, rfl⟩
    | heap ocap olen oes odata => exact push_wf_es vec olen _ hwf

theorem remove_wf_es (vec : Vec a) (index count : Nat) (hwf : Wf vec) :
    (vector_remove vec index count).elim True fun v2 =>
      Wf v2 ∧ vector_element_size v2 = vector_element_size vec := by
  cases vec with
  | tagged w => trivial
  | heap cap len es f =>
    simp only [vector_remove]
    split
    · trivial
    · unfold Wf at hwf ⊢
      simp only [vector_len, vector_capacity, vector_element_size, Option.elim] at hwf ⊢
      refine ⟨by omega, by trivial⟩

theorem clear_wf_es (vec : Vec a) :
    Wf (vector_clear vec) ∧ vector_element_size (vector_clear vec) = vector_element_size vec := by
  cases vec with
  | tagged w => exact ⟨Nat.le_refl 0, rfl⟩
  | heap cap len es f =>
    exact ⟨by unfold Wf; simp [vector_clear, vector_len, vector_capacity], rfl⟩

/-! ### Claim theorems -/

/-- Claim C1, failing input. The claim says `vector_insert` shifts the
`length - index` elements at and after `index` rightward and yields
`s[0..index) ++ e[0..count) ++ s[index..length)`. The source instead
`memmove`s `header->length - 1 - count` elements. On the heap vector
holding `[1, 2, 3]` (capacity 4), inserting the single element `9` at
index 0 moves `3 - 1 - 1 = 1` element instead of `3 - 0 = 3`, so the
code yields contents `[9, 1, 3, 4]` (position 2 still holds the old
`3`, position 3 exposes a cell that was never written) instead of the
claimed `[9, 1, 2, 3]`. The claim, the doc comment on `vector_insert`
(shifting all following elements to the right) and the spec agree on
the intent, so the implementation is the defect. -/
theorem insert_claim_failing_input :
    (vector_insert (Vec.heap 4 3 1 (fun i => i + 1)) 0 [9] 1).map elems = some [9, 1, 3, 4]
    ∧ (elems (Vec.heap 4 3 1 (fun i => i + 1))).take 0 ++ [9]
        ++ (elems (Vec.heap 4 3 1 (fun i => i + 1))).drop 0 = [9, 1, 2, 3]
    ∧ ¬ (vector_insert (Vec.heap 4 3 1 (fun i => i + 1)) 0 [9] 1).map elems
        = some ((elems (Vec.heap 4 3 1 (fun i => i + 1))).take 0 ++ [9]
            ++ (elems (Vec.heap 4 3 1 (fun i => i + 1))).drop 0) :=
  ⟨by decide, by decide, by decide⟩

/-- Claim C2, counterexample. The claim says a zero-count push never
aborts on any vector, including the tagged-empty form. But
`vector_insert` aborts whenever `vector_base` is null after the reserve
step, and a zero-count reserve on the tagged-empty vector is a no-op,
so `vector_push(&v, NULL, 0)` on the vector returned by
`vector_new(0, 1)` reaches `abort()`. -/
theorem zero_count_claim_false :
    vector_push (vector_new (a := Nat) 0 1) [] 0 = none := rfl

/-- Claim C2, amended. Zero-count insert, push, remove and slice are
no-ops that never abort on a heap-backed vector when the index is at
most the length (nothing is read from the `elements` buffer, so a null
buffer is harmless); on the tagged-empty form all four abort, and on a
heap-backed vector an index above the length aborts even with a zero
count. -/
theorem zero_count_spec_amended (cap len es index w : Nat) (f : Nat → a)
    (hwf : len ≤ cap) (hidx : index ≤ len) :
    vector_insert (Vec.heap cap len es f) index [] 0 = some (Vec.heap cap len es f)
    ∧ vector_push (Vec.heap cap len es f) [] 0 = some (Vec.heap cap len es f)
    ∧ vector_remove (Vec.heap cap len es f) index 0 = some (Vec.heap cap len es f)
    ∧ vector_slice (Vec.heap cap len es f) index 0 = some []
    ∧ vector_insert (Vec.tagged w : Vec a) index [] 0 = none
    ∧ vector_push (Vec.tagged w : Vec a) [] 0 = none
    ∧ vector_remove (Vec.tagged w : Vec a) index 0 = none
    ∧ vector_slice (Vec.tagged w : Vec a) index 0 = none
    ∧ ∀ j, len < j →
        vector_insert (Vec.heap cap len es f) j [] 0 = none
        ∧ vector_remove (Vec.heap cap len es f) j 0 = none
        ∧ vector_slice (Vec.heap cap len es f) j 0 = none := by
  have hres : vector_reserve (Vec.heap cap len es f) 0 = Vec.heap cap len es f :=
    reserve_noop _ 0 (by simp [vector_len, vector_capacity]; omega)
  have key : ∀ j, j ≤ len →
      vector_insert (Vec.heap cap len es f) j [] 0 = some (Vec.heap cap len es f) := by
    intro j hj
    rw [insert_reserved_heap _ j 0 cap len es f [] hres, if_neg (by omega), memcpy_zero]
    have h1 : (if j < len then memmove f (j + 0) j (len - 1 - 0) else f) = f := by
      split
      · rw [Nat.add_zero, memmove_self]
      · rfl
    rw [h1, Nat.add_zero]
  refine ⟨key index hidx, key len le_rfl, ?_, ?_, rfl, rfl, rfl, rfl, ?_⟩
  · simp only [vector_remove]
    rw [if_neg (by omega), Nat.sub_zero, Nat.add_zero, memmove_self]
  · simp only [vector_slice]
    rw [if_neg (by omega)]
    simp
  · intro j hj
    refine ⟨?_, ?_, ?_⟩
    · rw [insert_reserved_heap _ j 0 cap len es f [] hres, if_pos hj]
    · simp only [vector_remove]
      rw [if_pos (by omega)]
    · simp only [vector_slice]
      rw [if_pos (by omega)]

/-- Claim C2, amended, witness at a concrete heap vector of capacity 2,
length 1 with index 1 and a concrete tagged word 9. -/
theorem zero_count_spec_amended_witness :
    vector_insert (Vec.heap 2 1 4 (fun _ => (0 : Nat))) 1 [] 0
        = some (Vec.heap 2 1 4 (fun _ => (0 : Nat)))
    ∧ vector_push (Vec.heap 2 1 4 (fun _ => (0 : Nat))) [] 0
        = some (Vec.heap 2 1 4 (fun _ => (0 : Nat)))
    ∧ vector_remove (Vec.heap 2 1 4 (fun _ => (0 : Nat))) 1 0
        = some (Vec.heap 2 1 4 (fun _ => (0 : Nat)))
    ∧ vector_slice (Vec.heap 2 1 4 (fun _ => (0 : Nat))) 1 0 = some []
    ∧ vector_insert (Vec.tagged 9 : Vec Nat) 1 [] 0 = none
    ∧ vector_push (Vec.tagged 9 : Vec Nat) [] 0 = none
    ∧ vector_remove (Vec.tagged 9 : Vec Nat) 1 0 = none
    ∧ vector_slice (Vec.tagged 9 : Vec Nat) 1 0 = none
    ∧ ∀ j, 1 < j →
        vector_insert (Vec.heap 2 1 4 (fun _ => (0 : Nat))) j [] 0 = none
        ∧ vector_remove (Vec.heap 2 1 4 (fun _ => (0 : Nat))) j 0 = none
        ∧ vector_slice (Vec.heap 2 1 4 (fun _ => (0 : Nat))) j 0 = none :=
  zero_count_spec_amended 2 1 4 1 9 (fun _ => (0 : Nat)) (by decide) (by decide)

/-- Claim C3, counterexample. The claim predicts the grow branch
installs `capacity + floor(capacity * 1.5) + extraCapacity`; at
capacity 1, length 1, extraCapacity 1 that is `1 + 1 + 1 = 3` (here
written `1 + 3 * 1 / 2 + 1`), but the source computes
`oldCapacity + oldCapacity / 2 * 3 + extraCapacity = 1 + 0 + 1 = 2`
because `capacity / 2 * 3` rounds before multiplying. -/
theorem reserve_growth_claim_false :
    ¬ vector_capacity (vector_reserve (Vec.heap 1 1 1 (fun _ => (0 : Nat))) 1)
        = 1 + 3 * 1 / 2 + 1 := by decide

/-- Claim C3, amended. `vector_reserve` is a no-op when
`length + extraCapacity <= capacity`; otherwise the new capacity is
`capacity + (capacity / 2) * 3 + extraCapacity` (which equals
`capacity + floor(capacity * 1.5) + extraCapacity` only for even
capacities), and the length, the element size and the cells of the old
allocation are preserved. -/
theorem reserve_spec_amended (vec : Vec a) (e : Nat) :
    (vector_len vec + e ≤ vector_capacity vec → vector_reserve vec e = vec)
    ∧ (vector_capacity vec < vector_len vec + e →
        vector_capacity (vector_reserve vec e)
            = vector_capacity vec + vector_capacity vec / 2 * 3 + e
        ∧ vector_len (vector_reserve vec e) = vector_len vec
        ∧ vector_element_size (vector_reserve vec e) = vector_element_size vec
        ∧ ∀ i, i < vector_capacity vec → dataOf (vector_reserve vec e) i = dataOf vec i) := by
  refine ⟨reserve_noop vec e, fun h => ?_⟩
  have hgrow : ¬ (vector_len vec + e ≤ vector_capacity vec) := by omega
  refine ⟨?_, reserve_len vec e, reserve_element_size vec e, fun i hi => ?_⟩
  · simp only [vector_reserve]
    rw [if_neg hgrow]
    rfl
  · simp only [vector_reserve]
    rw [if_neg hgrow]
    simp only [dataOf]
    rw [if_pos hi]

/-- Claim C3, amended, witness: a no-op reserve at capacity 4, length 1,
extra 2, and a growing reserve at capacity 1, length 1, extra 1 landing
on capacity `1 + 1 / 2 * 3 + 1 = 2`. -/
theorem reserve_spec_amended_witness :
    vector_reserve (Vec.heap 4 1 1 (fun _ => (0 : Nat))) 2
        = Vec.heap 4 1 1 (fun _ => (0 : Nat))
    ∧ vector_capacity (vector_reserve (Vec.heap 1 1 1 (fun _ => (0 : Nat))) 1)
        = 1 + 1 / 2 * 3 + 1 :=
  ⟨(reserve_spec_amended _ 2).1 (by decide),
    ((reserve_spec_amended (Vec.heap 1 1 1 (fun _ => (0 : Nat))) 1).2 (by decide)).1⟩

/-- Claim C4, failing input. At `initialCapacity = 0` and
`elementSize = MAX_ZERO_CAPACITY_ELEMENT_SIZE = 2 ^ 63`, the guard
`elementSize <= MAX_ZERO_CAPACITY_ELEMENT_SIZE` admits the tagged form,
but `(elementSize << 1) | 1` drops the one bit the value has: the
handle is the word `1` and `vector_element_size` reports `0`, not
`2 ^ 63`. This contradicts the claim (the element size must be
recovered exactly, and element sizes that do not fit in the 63
available bits must allocate) and the comment on the constant itself,
which calls it the maximum element size that can be encoded in the
higher bits. -/
theorem new_element_size_failing_input :
    vector_base_is_null (vector_new (a := Nat) 0 MAX_ZERO_CAPACITY_ELEMENT_SIZE) = true
    ∧ vector_element_size (vector_new (a := Nat) 0 MAX_ZERO_CAPACITY_ELEMENT_SIZE) = 0
    ∧ MAX_ZERO_CAPACITY_ELEMENT_SIZE ≠ 0 :=
  ⟨by decide, by decide, by decide⟩

/-- Claim C5: for a heap-backed vector, `vector_remove` with
`index + count <= length` closes the gap by shifting the elements after
the removed range leftward, leaving `s.take index ++ s.drop (index + count)`,
keeps the capacity and the element size, and decrements the length by
`count`; with `index + count > length` it aborts. -/
theorem remove_spec (cap len es index count : Nat) (f : Nat → a) :
    (index + count ≤ len →
      vector_remove (Vec.heap cap len es f) index count
        = some (Vec.heap cap (len - count) es
            (memmove f index (index + count) (len - index - count)))
      ∧ elems (Vec.heap cap (len - count) es
            (memmove f index (index + count) (len - index - count)))
          = (elems (Vec.heap cap len es f)).take index
            ++ (elems (Vec.heap cap len es f)).drop (index + count))
    ∧ (len < index + count →
        vector_remove (Vec.heap cap len es f) index count = none) := by
  constructor
  · intro h
    constructor
    · simp only [vector_remove]
      rw [if_neg (by omega)]
    · show (List.range (len - count)).map (memmove f index (index + count) (len - index - count))
          = ((List.range len).map f).take index ++ ((List.range len).map f).drop (index + count)
      exact remove_elems_eq f len index count h
  · intro h
    simp only [vector_remove]
    rw [if_pos (by omega)]

/-- Claim C5, witness: removing one element at index 1 from the heap
vector holding `[1, 2, 3]` yields `[1, 3]`, and removing past the end
aborts. -/
theorem remove_spec_witness :
    (vector_remove (Vec.heap 4 3 1 (fun i => i + 1)) 1 1
        = some (Vec.heap 4 2 1 (memmove (fun i => i + 1) 1 2 1))
      ∧ elems (Vec.heap 4 2 1 (memmove (fun i => i + 1) 1 2 1))
          = (elems (Vec.heap 4 3 1 (fun i => i + 1))).take 1
            ++ (elems (Vec.heap 4 3 1 (fun i => i + 1))).drop 2)
    ∧ vector_remove (Vec.heap 4 3 1 (fun i => i + 1)) 2 2 = none :=
  ⟨(remove_spec 4 3 1 1 1 (fun i => i + 1)).1 (by decide),
    (remove_spec 4 3 1 2 2 (fun i => i + 1)).2 (by decide)⟩

/-- Claim C6, counterexample. Both vectors have element size 4, and the
claim says the extension must then succeed with `a` gaining
`vector_len b = 0` elements. But with `a` in the tagged-empty form and
`b` heap-backed with length zero, `vector_extend` calls `vector_push`
with count 0, the zero-count reserve leaves `a` tagged, and the
null-base check in `vector_insert` aborts. -/
theorem extend_claim_false :
    vector_extend (vector_new (a := Nat) 0 4) (vector_new 1 4) = none
    ∧ vector_element_size (vector_new (a := Nat) 0 4)
        = vector_element_size (vector_new (a := Nat) 1 4) :=
  ⟨rfl, by decide⟩

/-- Claim C6, amended, in three parts covering every input. With
mismatched element sizes `vector_extend` aborts. With `vec` in the
tagged-empty form and `other` heap-backed with length zero it also
aborts (the zero-count push it issues hits the null-base check of
`vector_insert`, whatever the element sizes). In every other
configuration with equal element sizes — `other` tagged-empty, or
`other` holding at least one element, or `vec` heap-backed — it
succeeds: it appends the contents of `other` in order after the prior
contents of `vec`, adds `vector_len other` to the length, keeps the
element size, and leaves `other` itself untouched (the state-passing
form returns it unchanged). -/
theorem extend_spec_amended (vec other : Vec a) (hwf : Wf vec) :
    (vector_element_size vec ≠ vector_element_size other →
      vector_extend vec other = none ∧ vector_extend_st vec other = none)
    ∧ (vector_base_is_null vec = true → vector_base_is_null other = false →
      vector_len other = 0 →
      vector_extend vec other = none ∧ vector_extend_st vec other = none)
    ∧ (vector_element_size vec = vector_element_size other →
      (vector_base_is_null other = true ∨ 0 < vector_len other
        ∨ vector_base_is_null vec = false) →
      ∃ v2, vector_extend_st vec other = some (v2, other)
        ∧ vector_extend vec other = some v2
        ∧ vector_len v2 = vector_len vec + vector_len other
        ∧ vector_element_size v2 = vector_element_size vec
        ∧ elems v2 = elems vec ++ elems other) := by
  refine ⟨fun hne => ⟨?_, ?_⟩, fun hvnull honull holen => ?_, fun hes hok => ?_⟩
  · simp only [vector_extend]
    rw [if_pos hne]
  · simp only [vector_extend_st]
    rw [if_pos hne]
  · obtain ⟨w, rfl⟩ : ∃ w, vec = Vec.tagged w := by
      cases vec with
      | tagged w => exact ⟨w, rfl⟩
      | heap cap len es f => exact absurd hvnull (by simp [vector_base_is_null])
    obtain ⟨ocap, olen, oes, odata, rfl⟩ := heap_of_not_null other honull
    have h0 : olen = 0 := by simpa [vector_len] using holen
    subst h0
    constructor
    · simp only [vector_extend]
      split
      · rfl
      · rfl
    · simp only [vector_extend_st]
      split
      · rfl
      · rfl
  · have hne : ¬ vector_element_size vec ≠ vector_element_size other := fun hn => hn hes
    cases other with
    | tagged w =>
      refine ⟨vec, ?_, ?_, by simp [vector_len], rfl, by simp [elems, vector_len, dataOf]⟩
      · simp only [vector_extend_st]
        rw [if_neg hne]
      · simp only [vector_extend]
        rw [if_neg hne]
    | heap ocap olen oes odata =>
      have hcnt : 0 < olen ∨ vector_base_is_null vec = false := by
        rcases hok with h | h | h
        · exact absurd h (by simp [vector_base_is_null])
        · exact Or.inl (by simpa [vector_len] using h)
        · exact Or.inr h
      obtain ⟨cap2, f2, hp, helems, hcap2⟩ :=
        push_spec vec ((List.range olen).map odata) olen hwf (by simp) hcnt
      refine ⟨Vec.heap cap2 (vector_len vec + olen) (vector_element_size vec) f2, ?_, ?_,
        by simp [vector_len], rfl, ?_⟩
      · simp only [vector_extend_st]
        rw [if_neg hne, hp]
        rfl
      · simp only [vector_extend]
        rw [if_neg hne, hp]
      · show (List.range (vector_len vec + olen)).map f2
            = elems vec ++ elems (Vec.heap ocap olen oes odata)
        rw [helems]
        rfl

/-- Claim C6, amended, witness: the mismatch abort at element sizes 4
and 3 (tagged words 9 and 7), the remaining-case abort for the
tagged-empty vector against a heap vector of length zero, and the
successful extension of the tagged-empty vector of element size 4 with
a heap vector holding two elements. -/
theorem extend_spec_amended_witness :
    (vector_extend (Vec.tagged 9 : Vec Nat) (Vec.tagged 7) = none
      ∧ vector_extend_st (Vec.tagged 9 : Vec Nat) (Vec.tagged 7) = none)
    ∧ (vector_extend (Vec.tagged 9 : Vec Nat) (Vec.heap 1 0 4 (fun _ => 0)) = none
      ∧ vector_extend_st (Vec.tagged 9 : Vec Nat) (Vec.heap 1 0 4 (fun _ => 0)) = none)
    ∧ ∃ v2, vector_extend_st (Vec.tagged 9 : Vec Nat) (Vec.heap 2 2 4 (fun i => i + 5))
          = some (v2, Vec.heap 2 2 4 (fun i => i + 5))
      ∧ vector_extend (Vec.tagged 9 : Vec Nat) (Vec.heap 2 2 4 (fun i => i + 5)) = some v2
      ∧ vector_len v2
          = vector_len (Vec.tagged 9 : Vec Nat) + vector_len (Vec.heap 2 2 4 fun i => i + 5)
      ∧ vector_element_size v2 = vector_element_size (Vec.tagged 9 : Vec Nat)
      ∧ elems v2
          = elems (Vec.tagged 9 : Vec Nat) ++ elems (Vec.heap 2 2 4 fun i => i + 5) :=
  ⟨(extend_spec_amended (Vec.tagged 9) (Vec.tagged 7) (by decide)).1 (by decide),
    (extend_spec_amended (Vec.tagged 9) (Vec.heap 1 0 4 (fun _ => 0)) (by decide)).2.1
      (by decide) (by decide) (by decide),
    (extend_spec_amended (Vec.tagged 9) (Vec.heap 2 2 4 (fun i => i + 5)) (by decide)).2.2
      (by decide) (by decide)⟩

/-- Claim C7: `vector_at` coincides with `vector_at_mut`, which yields a
(pointer to the) element exactly when `index < length` and the null
result `none` otherwise; `vector_first` and `vector_last` are null
exactly on an empty vector. All four are total lookups in the
embedding: unlike insert, remove and slice, their source contains no
`abort()` call, the null result being the soft failure path. -/
theorem lookup_spec (vec : Vec a) (index : Nat) :
    ((vector_at_mut vec index).isSome ↔ index < vector_len vec)
    ∧ vector_at vec index = vector_at_mut vec index
    ∧ (vector_first vec = none ↔ vector_len vec = 0)
    ∧ (vector_last vec = none ↔ vector_len vec = 0) := by
  refine ⟨?_, rfl, ?_, ?_⟩
  · by_cases h : index < vector_len vec <;> simp [vector_at_mut, h]
  · by_cases h : vector_len vec = 0
    · simp [vector_first, vector_at, vector_at_mut, h]
    · simp [vector_first, vector_at, vector_at_mut, h, Nat.pos_of_ne_zero h]
  · by_cases h : vector_len vec = 0
    · simp [vector_last, h]
    · simp [vector_last, h, Nat.pos_of_ne_zero h]

/-- Claim C9: on a heap-backed vector, removing all `vector_len v`
elements starting at index 0 produces exactly the state `vector_clear`
produces: the same allocation (same handle), same capacity, same
element size, untouched element region (the closing `memmove` moves
zero elements), and length zero. -/
theorem remove_all_eq_clear (cap len es : Nat) (f : Nat → a) :
    vector_remove (Vec.heap cap len es f) 0 (vector_len (Vec.heap cap len es f))
      = some (vector_clear (Vec.heap cap len es f)) := by
  simp only [vector_remove, vector_len, vector_clear]
  rw [if_neg (by omega)]
  have h0 : len - 0 - len = 0 := by omega
  rw [Nat.sub_self, h0, memmove_zero]

/-- Claim C8: `vector_new` establishes the handle invariant
`length <= capacity`, every other public operation preserves it
(operations that can abort preserve it whenever they return a
post-state), and no operation after construction changes the element
size. `vector_slice` appears through its state-passing form, since it
produces no vector of its own. -/
theorem invariants_preserved (vec other : Vec a) (c e index count : Nat) (el : List a)
    (hwf : Wf vec) :
    Wf (vector_new (a := a) c e)
    ∧ (Wf (vector_reserve vec e)
        ∧ vector_element_size (vector_reserve vec e) = vector_element_size vec)
    ∧ ((vector_insert vec index el count).elim True fun v2 =>
        Wf v2 ∧ vector_element_size v2 = vector_element_size vec)
    ∧ ((vector_push vec el count).elim True fun v2 =>
        Wf v2 ∧ vector_element_size v2 = vector_element_size vec)
    ∧ (Wf (vector_slice_st vec index count).2
        ∧ vector_element_size (vector_slice_st vec index count).2 = vector_element_size vec)
    ∧ ((vector_extend vec other).elim True fun v2 =>
        Wf v2 ∧ vector_element_size v2 = vector_element_size vec)
    ∧ ((vector_remove vec index count).elim True fun v2 =>
        Wf v2 ∧ vector_element_size v2 = vector_element_size vec)
    ∧ (Wf (vector_clear vec)
        ∧ vector_element_size (vector_clear vec) = vector_element_size vec) := by
  have hslice : (vector_slice_st vec index count).2 = vec := by
    cases vec <;> simp [vector_slice_st]
  refine ⟨wf_new c e, ⟨reserve_wf vec e hwf, reserve_element_size vec e⟩,
    insert_wf_es vec index count el hwf, push_wf_es vec count el hwf,
    ?_, extend_wf_es vec other hwf, remove_wf_es vec index count hwf, clear_wf_es vec⟩
  rw [hslice]
  exact ⟨hwf, rfl⟩

/-- Claim C8, witness at a concrete heap vector of capacity 2 and
length 1 (and the tagged word 9 as the other vector of `vector_extend`). -/
theorem invariants_preserved_witness :
    Wf (vector_new (a := Nat) 3 4)
    ∧ (Wf (vector_reserve (Vec.heap 2 1 4 (fun _ => (0 : Nat))) 4)
        ∧ vector_element_size (vector_reserve (Vec.heap 2 1 4 (fun _ => (0 : Nat))) 4)
            = vector_element_size (Vec.heap 2 1 4 (fun _ => (0 : Nat))))
    ∧ ((vector_insert (Vec.heap 2 1 4 (fun _ => (0 : Nat))) 0 [5] 1).elim True fun v2 =>
        Wf v2 ∧ vector_element_size v2 = vector_element_size (Vec.heap 2 1 4 fun _ => (0 : Nat)))
    ∧ ((vector_push (Vec.heap 2 1 4 (fun _ => (0 : Nat))) [5] 1).elim True fun v2 =>
        Wf v2 ∧ vector_element_size v2 = vector_element_size (Vec.heap 2 1 4 fun _ => (0 : Nat)))
    ∧ (Wf (vector_slice_st (Vec.heap 2 1 4 (fun _ => (0 : Nat))) 0 1).2
        ∧ vector_element_size (vector_slice_st (Vec.heap 2 1 4 (fun _ => (0 : Nat))) 0 1).2
            = vector_element_size (Vec.heap 2 1 4 fun _ => (0 : Nat)))
    ∧ ((vector_extend (Vec.heap 2 1 4 (fun _ => (0 : Nat))) (Vec.tagged 9)).elim True fun v2 =>
        Wf v2 ∧ vector_element_size v2 = vector_element_size (Vec.heap 2 1 4 fun _ => (0 : Nat)))
    ∧ ((vector_remove (Vec.heap 2 1 4 (fun _ => (0 : Nat))) 0 1).elim True fun v2 =>
        Wf v2 ∧ vector_element_size v2 = vector_element_size (Vec.heap 2 1 4 fun _ => (0 : Nat)))
    ∧ (Wf (vector_clear (Vec.heap 2 1 4 (fun _ => (0 : Nat))))
        ∧ vector_element_size (vector_clear (Vec.heap 2 1 4 (fun _ => (0 : Nat))))
            = vector_element_size (Vec.heap 2 1 4 fun _ => (0 : Nat))) :=
  invariants_preserved (Vec.heap 2 1 4 (fun _ => (0 : Nat))) (Vec.tagged 9) 3 4 0 1 [5]
    (by decide)

/-- Claim C10: the read-only operations (`len`, `capacity`,
`element_size`, `is_empty`, `first`, `last`, `at`, `at_mut`, `slice`),
taken in their state-passing form that mirrors the C bodies statement
by statement, return the handle, header fields and element region they
were given unchanged, and their value components agree with the plain
functional definitions. -/
theorem readonly_frame (vec : Vec a) (index count : Nat) :
    (vector_len_st vec).2 = vec ∧ (vector_len_st vec).1 = vector_len vec
    ∧ (vector_capacity_st vec).2 = vec ∧ (vector_capacity_st vec).1 = vector_capacity vec
    ∧ (vector_element_size_st vec).2 = vec
    ∧ (vector_element_size_st vec).1 = vector_element_size vec
    ∧ (vector_is_empty_st vec).2 = vec ∧ (vector_is_empty_st vec).1 = vector_is_empty vec
    ∧ (vector_first_st vec).2 = vec ∧ (vector_first_st vec).1 = vector_first vec
    ∧ (vector_last_st vec).2 = vec ∧ (vector_last_st vec).1 = vector_last vec
    ∧ (vector_at_st vec index).2 = vec ∧ (vector_at_st vec index).1 = vector_at vec index
    ∧ (vector_at_mut_st vec index).2 = vec
    ∧ (vector_at_mut_st vec index).1 = vector_at_mut vec index
    ∧ (vector_slice_st vec index count).2 = vec
    ∧ (vector_slice_st vec index count).1 = vector_slice vec index count := by
  cases vec <;>
    simp [vector_len_st, vector_capacity_st, vector_element_size_st, vector_is_empty_st,
      vector_first_st, vector_at_st, vector_at_mut_st, vector_last_st, vector_slice_st,
      vector_len, vector_capacity, vector_element_size, vector_is_empty, vector_first,
      vector_at, vector_at_mut, vector_last, vector_slice, dataOf]

end Collectc
